import Mathlib

set_option maxRecDepth 100000

/-!
Shallow embedding of `src/huffman.py` (a canonical Huffman coder) and proofs
about it.  Python data is modelled as follows: `str` values are `List Char`,
Python `int` is `Int` (frequency tables are `List Int`, symbols are `Nat`),
the `HuffmanNode`/`None` union `HTree` is the inductive `HTree` below with
`HTree.nil` standing for `None`.  File I/O (`open`, `readline`, per-line
iteration) is framing around the core and is not embedded: the cores below
take the already extracted header line and bitstream text.  Raised Python
exceptions are modelled with `Except PyErr`.
-/

/-- Python exceptions that the embedded code can raise: `ValueError`
(raised by `parse_header` for malformed headers, covering both the
`ValueError` and `IndexError` it converts) and `AttributeError`
(dereferencing an attribute of `None` in `huffman_decode`). -/
inductive PyErr where
  | valueError
  | attributeError
deriving DecidableEq, Repr

/-- Embedding of the `HuffmanNode` dataclass together with `None`:
`HTree.nil` is Python `None`, and `HTree.node char_ascii freq left right`
is `HuffmanNode(char_ascii, freq, left, right)`. -/
inductive HTree where
  | nil
  | node (char_ascii : Nat) (freq : Int) (left : HTree) (right : HTree)
deriving DecidableEq, Repr

/-- Field access `x.char_ascii` (never reached on `None` in the modelled runs). -/
def HTree.char_ascii : HTree → Nat
  | .nil => 0
  | .node c _ _ _ => c

/-- Field access `x.freq`. -/
def HTree.freq : HTree → Int
  | .nil => 0
  | .node _ f _ _ => f

/-- Field access `x.left`. -/
def HTree.left : HTree → HTree
  | .nil => .nil
  | .node _ _ l _ => l

/-- Field access `x.right`. -/
def HTree.right : HTree → HTree
  | .nil => .nil
  | .node _ _ _ r => r

/-- Embedding of `comes_before(a, b)` from `src/huffman.py`. -/
def comes_before (a b : HTree) : Bool :=
  if a.freq ≠ b.freq then decide (a.freq < b.freq) else decide (a.char_ascii < b.char_ascii)

/-- Embedding of `combine(a, b)` from `src/huffman.py`. -/
def combine (a b : HTree) : HTree :=
  if comes_before a b then .node a.char_ascii (a.freq + b.freq) a b
  else .node b.char_ascii (a.freq + b.freq) b a

/-- Strict comparison of the sort keys `(x.freq, x.char_ascii)` used by
`nodes.sort(key=lambda x: (x.freq, x.char_ascii))` in `create_huff_tree`. -/
def keyLt (a b : HTree) : Prop :=
  a.freq < b.freq ∨ (a.freq = b.freq ∧ a.char_ascii < b.char_ascii)

instance (a b : HTree) : Decidable (keyLt a b) := by
  unfold keyLt; infer_instance

/-- Stable insertion of a node into an already sorted list: the new element
goes after existing elements with an equal key, matching Python's stable sort. -/
def insSorted (a : HTree) : List HTree → List HTree
  | [] => [a]
  | b :: l => if keyLt a b then a :: b :: l else b :: insSorted a l

/-- Embedding of `nodes.sort(key=lambda x: (x.freq, x.char_ascii))`: a stable
sort by the key `(freq, char_ascii)`.  In the runs of `create_huff_tree`
all keys are distinct, so any correct sort agrees with Python's. -/
def sortNodes (l : List HTree) : List HTree :=
  l.foldl (fun acc a => insSorted a acc) []

/-- Embedding of Python `enumerate` on a frequency list, with start index. -/
def pyEnumFrom : Nat → List Int → List (Nat × Int)
  | _, [] => []
  | k, x :: g => (k, x) :: pyEnumFrom (k + 1) g

/-- Embedding of Python `enumerate(char_freq)`. -/
def pyEnum (g : List Int) : List (Nat × Int) := pyEnumFrom 0 g

/-- The `while len(nodes) > 1` loop of `create_huff_tree`: sort, pop the two
least nodes, append their combination.  The loop runs `len - 1` times, so
fuel `len` (supplied by `create_huff_tree`) always suffices; fuel makes the
definition structurally recursive and hence kernel-evaluable. -/
def treeLoopAux : Nat → List HTree → HTree
  | _, [] => .nil
  | _, [n] => n
  | 0, _ :: _ :: _ => .nil
  | fuel + 1, n₁ :: n₂ :: rest =>
    match sortNodes (n₁ :: n₂ :: rest) with
    | a :: b :: rest₂ => treeLoopAux fuel (rest₂ ++ [combine a b])
    | _ => .nil

/-- The initial leaf list of `create_huff_tree`:
`[HuffmanNode(i, freq) for i, freq in enumerate(char_freq) if freq > 0]`. -/
def initLeaves (fl : List Int) : List HTree :=
  ((pyEnum fl).filter (fun p => decide (0 < p.2))).map
    (fun p => HTree.node p.1 p.2 .nil .nil)

/-- Embedding of `create_huff_tree(char_freq)` from `src/huffman.py`
(`HTree.nil` is the `None` returned for an all-zero table). -/
def create_huff_tree (fl : List Int) : HTree :=
  treeLoopAux (initLeaves fl).length (initLeaves fl)

/-- Symbols of the leaves of a tree, in left-to-right order.  A leaf is a
node whose children are both `nil`, exactly the condition tested by
`create_code` and `huffman_decode`. -/
def leafChars : HTree → List Nat
  | .nil => []
  | .node c _ l r => if l = .nil ∧ r = .nil then [c] else leafChars l ++ leafChars r

/-- Minimum symbol among the descendant leaves of a tree (256 for no leaves);
used to state what the spec calls the representative symbol. -/
def minLeafChar (t : HTree) : Nat := (leafChars t).foldr Nat.min 256

/-- A tree is full when it is a non-`nil` tree all of whose nodes have
either two non-`nil` children (both full) or none. -/
def isFull : HTree → Bool
  | .nil => false
  | .node _ _ l r => (decide (l = .nil) && decide (r = .nil)) || (isFull l && isFull r)

/-- The recursive `traverseCode` closure of `create_code`, returning the
`(symbol, code)` pairs it writes, in write order: a pair at each leaf, then
the pairs of the left subtree (codes extended by '0'), then of the right
(extended by '1').  `traverseCode` on `nil` children contributes nothing, just
as the `if current_node.left:` guards skip `None` children. -/
def traverseCode : HTree → List Char → List (Nat × List Char)
  | .nil, _ => []
  | .node c _ l r, code =>
    (if l = .nil ∧ r = .nil then [(c, code)] else [])
      ++ traverseCode l (code ++ ['0']) ++ traverseCode r (code ++ ['1'])

/-- Embedding of `create_code(node)` from `src/huffman.py`: a 256-entry list
of code strings, filled by the writes `codes[char] = code` of `traverseCode`.
`List.set` ignores out-of-range indices; in Python an index ≥ 256 would
raise, but every tree built by `create_huff_tree` from a 256-entry table
has symbols below 256, so the cases coincide on all modelled runs. -/
def create_code (t : HTree) : List (List Char) :=
  match t with
  | .nil => List.replicate 256 []
  | .node c f l r =>
    (traverseCode (.node c f l r) []).foldl
      (fun cs (p : Nat × List Char) => cs.set p.1 p.2) (List.replicate 256 [])

/-- Decimal digit character, as produced by Python `str` on an integer. -/
def digitChar (d : Nat) : Char := Char.ofNat (48 + d)

/-- Digit accumulation for `natToDigits`; the fuel argument (always at least
the value) makes the recursion structural. -/
def natToDigitsAux : Nat → Nat → List Char → List Char
  | 0, _, acc => acc
  | fuel + 1, n, acc =>
    if n < 10 then digitChar (n % 10) :: acc
    else natToDigitsAux fuel (n / 10) (digitChar (n % 10) :: acc)

/-- Decimal representation of a natural number, as Python `str`. -/
def natToDigits (n : Nat) : List Char := natToDigitsAux (n + 1) n []

/-- Embedding of Python `str` on an integer. -/
def intToStr (i : Int) : List Char :=
  if i < 0 then '-' :: natToDigits (-i).toNat else natToDigits i.toNat

/-- Numeric value of a decimal digit character, if it is one. -/
def digOf (c : Char) : Option Nat :=
  if 48 ≤ c.toNat ∧ c.toNat ≤ 57 then some (c.toNat - 48) else none

/-- Value of a digit string, scanned left to right. -/
def digitsValAux : List Char → Nat → Option Nat
  | [], acc => some acc
  | c :: r, acc =>
    match digOf c with
    | some d => digitsValAux r (10 * acc + d)
    | none => none

/-- Value of a non-empty all-digit string, `none` otherwise. -/
def digitsVal (l : List Char) : Option Nat :=
  if l = [] then none else digitsValAux l 0

/-- Embedding of Python `int(s)` on a whitespace-free token: an optional
sign followed by at least one decimal digit; `none` models `ValueError`.
(Python additionally accepts underscore separators and non-ASCII digits;
those never arise from `str` output and are not modelled.) -/
def pyInt (s : List Char) : Option Int :=
  match s with
  | [] => none
  | c :: rest =>
    if c = '-' then (digitsVal rest).map (fun n => -(n : Int))
    else if c = '+' then (digitsVal rest).map (fun n => (n : Int))
    else (digitsVal s).map (fun n => (n : Int))

/-- Whitespace characters for Python `str.split()` (the forms that can occur
in the modelled text). -/
def isSpC (c : Char) : Bool := c = ' ' ∨ c = '\t' ∨ c = '\n' ∨ c = '\r'

/-- Splitter for Python `str.split()`: accumulates the current token in
reverse in `acc`, emitting it at each whitespace run and at the end. -/
def splitWsAux : List Char → List Char → List (List Char)
  | [], acc => if acc = [] then [] else [acc.reverse]
  | c :: r, acc =>
    if isSpC c then
      (if acc = [] then [] else [acc.reverse]) ++ splitWsAux r []
    else splitWsAux r (c :: acc)

/-- Embedding of Python `header_string.split()`: split on whitespace runs,
discarding empty pieces. -/
def splitWs (s : List Char) : List (List Char) := splitWsAux s []

/-- Embedding of `' '.join(header)` from `create_header`. -/
def joinSp : List (List Char) → List Char
  | [] => []
  | [t] => t
  | t :: ts => t ++ ' ' :: joinSp ts

/-- The token list built by `create_header`: for every entry with
`freq != 0`, in index order, the strings `str(i)` and `str(freq)`. -/
def headerTokens (f : List Int) : List (List Char) :=
  ((pyEnum f).filter (fun p => decide (p.2 ≠ 0))).flatMap
    (fun p => [natToDigits p.1, intToStr p.2])

/-- Embedding of `create_header(freqs)` from `src/huffman.py`. -/
def create_header (f : List Int) : List Char := joinSp (headerTokens f)

/-- Embedding of the Python list assignment `freq_list[char_ascii] = freq`:
a negative index counts from the end; an index out of `[-len, len)` raises
`IndexError` (modelled as `none`). -/
def pyListSet (l : List Int) (i : Int) (v : Int) : Option (List Int) :=
  let j : Int := if i < 0 then i + l.length else i
  if 0 ≤ j ∧ j < (l.length : Int) then some (l.set j.toNat v) else none

/-- The loop of `parse_header` over the split fields, two at a time.  A lone
trailing field raises `IndexError` on `header_list[i + 1]`; a non-integer
field raises `ValueError`; an out-of-range symbol raises `IndexError`; the
function converts all of them to `ValueError("Malformed header string.")`. -/
def parsePairs : List (List Char) → List Int → Except PyErr (List Int)
  | [], fl => .ok fl
  | [_], _ => .error .valueError
  | t₁ :: t₂ :: rest, fl =>
    match pyInt t₁ with
    | none => .error .valueError
    | some ca =>
      match pyInt t₂ with
      | none => .error .valueError
      | some fr =>
        match pyListSet fl ca fr with
        | none => .error .valueError
        | some fl' => parsePairs rest fl'

/-- Embedding of `parse_header(header_string)` from `src/huffman.py`. -/
def parse_header (s : List Char) : Except PyErr (List Int) :=
  parsePairs (splitWs s) (List.replicate 256 0)

/-- Frequency counting over an in-memory byte sequence: the loop body of
`cnt_freq` (`freq_list[ord(char)] += 1` over a 256-entry zero table), with
the file reading stripped away.  `List.set` ignores indices ≥ 256; in the
modelled runs every byte is below 256. -/
def cnt_freq_list (s : List Nat) : List Int :=
  s.foldl (fun fl b => fl.set b (fl.getD b 0 + 1)) (List.replicate 256 0)

/-- One character step of the `huffman_decode` traversal: on '0' or '1' move
to the left or right child (`none` models the `AttributeError` raised when
the current position is `None`); on any other character stay in place. -/
def stepNode (cur : HTree) (ch : Char) : Option HTree :=
  if ch = '0' then
    match cur with
    | .nil => none
    | .node _ _ l _ => some l
  else if ch = '1' then
    match cur with
    | .nil => none
    | .node _ _ _ r => some r
  else some cur

/-- The bit-consuming loop of `huffman_decode`: step per character, then
test `current_node.left is None and current_node.right is None` (an
`AttributeError` when the position is `None`); at a leaf emit its symbol
and reset to the root. -/
def decodeLoop (root : HTree) : HTree → List Char → Except PyErr (List Nat)
  | _, [] => Except.ok []
  | cur, ch :: rest =>
    match stepNode cur ch with
    | none => Except.error PyErr.attributeError
    | some .nil => Except.error PyErr.attributeError
    | some (.node c f l r) =>
      if l = .nil ∧ r = .nil then (decodeLoop root root rest).map (fun out => c :: out)
      else decodeLoop root (.node c f l r) rest

/-- Embedding of `huffman_encode` with the file plumbing stripped: from the
input byte sequence, the header line text and the bitstream text that the
function writes.  Bytes outside `[0, 256)` are skipped with a warning in
the source; after `create_huff_tree` returns `None` the function returns
with only the header written. -/
def huffman_encode_core (s : List Nat) : List Char × List Char :=
  let fl := cnt_freq_list s
  (create_header fl,
    match create_huff_tree fl with
    | .nil => []
    | _ =>
      s.flatMap (fun b => if b < 256 then (create_code (create_huff_tree fl)).getD b [] else []))

/-- Embedding of `huffman_decode` with the file plumbing stripped: parse the
header line (propagating its `ValueError`), rebuild the tree, and run the
traversal over the bitstream text. -/
def huffman_decode_core (header bits : List Char) : Except PyErr (List Nat) :=
  match parse_header header with
  | .error e => .error e
  | .ok fl => decodeLoop (create_huff_tree fl) (create_huff_tree fl) bits

/-- Boolean test that `p` begins `s` (as lists of characters). -/
def listPfx : List Char → List Char → Bool
  | [], _ => true
  | _ :: _, [] => false
  | a :: p, b :: q => a = b && listPfx p q

/-- The known-vector frequency table of the spec's test: counts 2, 4, 8,
16, 2 at symbols 97, 98, 99, 100, 102. -/
def knownTable : List Int :=
  ((((List.replicate 256 (0 : Int)).set 97 2).set 98 4).set 99 8 |>.set 100 16).set 102 2

/-- Specification companion of `natToDigits`, by well-founded recursion on
the value; used only in proofs (the fuel version evaluates). -/
def natDigs (n : Nat) : List Char :=
  if n < 10 then [digitChar n] else natDigs (n / 10) ++ [digitChar (n % 10)]
termination_by n
decreasing_by exact Nat.div_lt_self (by omega) (by omega)

/-- The header tokens contributed by the table entries from index `k` on. -/
def tokensFrom (k : Nat) (g : List Int) : List (List Char) :=
  ((pyEnumFrom k g).filter (fun p => decide (p.2 ≠ 0))).flatMap
    (fun p => [natToDigits p.1, intToStr p.2])

/-- Effect of the `parse_header` loop on the table: set each entry of `g`
with a non-zero value at its index. -/
def updateNZ : Nat → List Int → List Int → List Int
  | _, [], T => T
  | k, x :: g, T => updateNZ (k + 1) g (if x ≠ 0 then T.set k x else T)

/-- Malformed-token conditions on a split header: an odd number of fields,
a field that is no integer, or a symbol field (even position) whose value
falls outside `[-256, 255]` (the range Python list indexing accepts on a
256-entry list). -/
def badToks (toks : List (List Char)) : Prop :=
  toks.length % 2 = 1 ∨ (∃ t ∈ toks, pyInt t = none) ∨
    ∃ i t v, toks[2 * i]? = some t ∧ pyInt t = some v ∧ (v < -256 ∨ 256 ≤ v)

/-- Symbols with positive frequency, in increasing order: the leaf symbols
the construction starts from. -/
def supportChars (fl : List Int) : List Nat :=
  ((pyEnum fl).filter (fun p => decide (0 < p.2))).map Prod.fst

/-- The node reached from `t` by following a string of bit characters
('0' to the left child, '1' to the right). -/
def nodeAt : HTree → List Char → Option HTree
  | t, [] => some t
  | .nil, _ :: _ => none
  | .node _ _ l r, ch :: p =>
    if ch = '0' then nodeAt l p else if ch = '1' then nodeAt r p else none

/-- Leaf test of the source (`left is None and right is None`), as a Bool. -/
def isLeafB : HTree → Bool
  | .nil => false
  | .node _ _ l r => decide (l = .nil) && decide (r = .nil)

/-- The 256-entry frequency table with a single non-zero count: 4 at
symbol 97. -/
def singleTable : List Int := (List.replicate 256 (0 : Int)).set 97 4

/-- Specification companion of `comes_before`, written from the spec's
ordering relation: node A precedes node B if A.frequency < B.frequency, or
frequencies are equal and A's representative symbol is smaller. -/
def specPrecedes (a b : HTree) : Prop :=
  a.freq < b.freq ∨ (a.freq = b.freq ∧ a.char_ascii < b.char_ascii)

/-! ### Decimal strings: Python `str` and `int` invert each other -/

theorem natToDigitsAux_eq_natDigs :
    ∀ (fuel n : Nat) (acc : List Char), n < fuel →
      natToDigitsAux fuel n acc = natDigs n ++ acc := by
  intro fuel
  induction fuel with
  | zero => intro n acc h; omega
  | succ f ih =>
    intro n acc h
    rw [natToDigitsAux, natDigs]
    by_cases h10 : n < 10
    · simp [h10, Nat.mod_eq_of_lt h10]
    · have hdiv : n / 10 < n := Nat.div_lt_self (by omega) (by omega)
      simp only [h10, if_false]
      rw [ih (n / 10) _ (by omega)]
      simp

theorem natToDigits_eq_natDigs (n : Nat) : natToDigits n = natDigs n := by
  have := natToDigitsAux_eq_natDigs (n + 1) n [] (by omega)
  simpa [natToDigits] using this

theorem digitChar_toNat {d : Nat} (h : d < 10) : (digitChar d).toNat = 48 + d := by
  interval_cases d <;> rfl

theorem natDigs_digits (n : Nat) : ∀ c ∈ natDigs n, 48 ≤ c.toNat ∧ c.toNat ≤ 57 := by
  induction n using Nat.strong_induction_on with
  | _ n ih =>
    rw [natDigs]
    by_cases h10 : n < 10
    · simp only [h10, if_true, List.mem_singleton]
      rintro c rfl
      rw [digitChar_toNat h10]; omega
    · have hdiv : n / 10 < n := Nat.div_lt_self (by omega) (by omega)
      simp only [h10, if_false, List.mem_append, List.mem_singleton]
      rintro c (hc | rfl)
      · exact ih _ hdiv c hc
      · rw [digitChar_toNat (Nat.mod_lt _ (by omega))]
        have := Nat.mod_lt n (y := 10) (by omega)
        omega

theorem natDigs_ne_nil (n : Nat) : natDigs n ≠ [] := by
  rw [natDigs]
  by_cases h10 : n < 10 <;> simp [h10]

theorem digitsValAux_append (l₁ l₂ : List Char) :
    ∀ acc, digitsValAux (l₁ ++ l₂) acc = (digitsValAux l₁ acc).bind (digitsValAux l₂) := by
  induction l₁ with
  | nil => intro acc; rfl
  | cons c r ih =>
    intro acc
    rw [List.cons_append, digitsValAux, digitsValAux]
    cases digOf c with
    | none => rfl
    | some d => exact ih _

theorem digOf_digitChar {d : Nat} (h : d < 10) : digOf (digitChar d) = some d := by
  interval_cases d <;> rfl

theorem digitsValAux_natDigs (n : Nat) :
    ∀ acc, digitsValAux (natDigs n) acc = some (acc * 10 ^ (natDigs n).length + n) := by
  induction n using Nat.strong_induction_on with
  | _ n ih =>
    intro acc
    rw [natDigs]
    by_cases h10 : n < 10
    · simp [h10, digitsValAux, digOf_digitChar h10, Nat.mul_comm]
    · have hdiv : n / 10 < n := Nat.div_lt_self (by omega) (by omega)
      simp only [h10, if_false]
      rw [digitsValAux_append, ih _ hdiv acc]
      have hmod : n % 10 < 10 := Nat.mod_lt _ (by omega)
      show digitsValAux [digitChar (n % 10)]
          (acc * 10 ^ (natDigs (n / 10)).length + n / 10) = _
      simp only [digitsValAux, digOf_digitChar hmod]
      rw [List.length_append, List.length_singleton, pow_succ, ← mul_assoc]
      congr 1
      have hdm : 10 * (n / 10) + n % 10 = n := Nat.div_add_mod n 10
      generalize acc * 10 ^ (natDigs (n / 10)).length = A
      omega

theorem digitsVal_natDigs (n : Nat) : digitsVal (natDigs n) = some n := by
  rw [digitsVal, if_neg (natDigs_ne_nil n), digitsValAux_natDigs]
  simp

theorem digit_ne_minus {c : Char} (h : 48 ≤ c.toNat ∧ c.toNat ≤ 57) : c ≠ '-' := by
  rintro rfl; revert h; decide

theorem digit_ne_plus {c : Char} (h : 48 ≤ c.toNat ∧ c.toNat ≤ 57) : c ≠ '+' := by
  rintro rfl; revert h; decide

theorem digit_not_space {c : Char} (h : 48 ≤ c.toNat ∧ c.toNat ≤ 57) : isSpC c = false := by
  rw [isSpC, decide_eq_false_iff_not]
  rintro (rfl | rfl | rfl | rfl) <;> revert h <;> decide

theorem pyInt_natToDigits (n : Nat) : pyInt (natToDigits n) = some (n : Int) := by
  rw [natToDigits_eq_natDigs]
  rcases hd : natDigs n with _ | ⟨c, rest⟩
  · exact absurd hd (natDigs_ne_nil n)
  · have hc : 48 ≤ c.toNat ∧ c.toNat ≤ 57 := natDigs_digits n c (by rw [hd]; exact List.mem_cons_self _ _)
    rw [pyInt, if_neg (digit_ne_minus hc), if_neg (digit_ne_plus hc), ← hd, digitsVal_natDigs]
    rfl

theorem pyInt_intToStr (i : Int) : pyInt (intToStr i) = some i := by
  rw [intToStr]
  by_cases hi : i < 0
  · rw [if_pos hi, pyInt, if_pos rfl, natToDigits_eq_natDigs, digitsVal_natDigs]
    show some (-(((-i).toNat : Nat) : Int)) = some i
    congr 1
    omega
  · rw [if_neg hi, pyInt_natToDigits]
    congr 1
    omega

theorem natToDigits_ne_nil (n : Nat) : natToDigits n ≠ [] := by
  rw [natToDigits_eq_natDigs]; exact natDigs_ne_nil n

theorem natToDigits_not_space (n : Nat) : ∀ c ∈ natToDigits n, isSpC c = false := by
  rw [natToDigits_eq_natDigs]
  exact fun c hc => digit_not_space (natDigs_digits n c hc)

theorem intToStr_ne_nil (i : Int) : intToStr i ≠ [] := by
  rw [intToStr]
  by_cases hi : i < 0 <;> simp [hi, natToDigits_ne_nil]

theorem intToStr_not_space (i : Int) : ∀ c ∈ intToStr i, isSpC c = false := by
  rw [intToStr]
  by_cases hi : i < 0
  · simp only [hi, if_true, List.mem_cons]
    rintro c (rfl | hc)
    · decide
    · exact natToDigits_not_space _ c hc
  · simp only [hi, if_false]
    exact natToDigits_not_space _

/-! ### Splitting inverts joining for whitespace-free tokens -/

theorem splitWsAux_token (t : List Char) (hns : ∀ c ∈ t, isSpC c = false) :
    ∀ (rest acc : List Char),
      splitWsAux (t ++ rest) acc = splitWsAux rest (t.reverse ++ acc) := by
  induction t with
  | nil => intro rest acc; simp
  | cons c t ih =>
    intro rest acc
    have hc : isSpC c = false := hns c (List.mem_cons_self _ _)
    rw [List.cons_append, splitWsAux, hc]
    simp only [Bool.false_eq_true, if_false]
    rw [ih (fun x hx => hns x (List.mem_cons_of_mem _ hx)) rest (c :: acc)]
    simp

theorem splitWs_joinSp :
    ∀ ts : List (List Char), (∀ t ∈ ts, t ≠ [] ∧ ∀ c ∈ t, isSpC c = false) →
      splitWs (joinSp ts) = ts := by
  intro ts
  induction ts with
  | nil => intro _; rfl
  | cons t ts ih =>
    intro h
    obtain ⟨htne, htns⟩ := h t (List.mem_cons_self _ _)
    cases ts with
    | nil =>
      show splitWs (joinSp [t]) = [t]
      rw [joinSp, splitWs, ← List.append_nil t, splitWsAux_token t htns, splitWsAux]
      have : t.reverse ++ [] ≠ [] := by simp [htne]
      rw [if_neg this]
      simp
    | cons t₂ ts₂ =>
      show splitWs (t ++ ' ' :: joinSp (t₂ :: ts₂)) = t :: t₂ :: ts₂
      rw [splitWs, splitWsAux_token t htns, splitWsAux]
      have hsp : isSpC ' ' = true := by decide
      rw [hsp]
      simp only [if_true, List.append_nil]
      have : t.reverse ≠ [] := by simp [htne]
      rw [if_neg this]
      have ih2 := ih (fun x hx => h x (List.mem_cons_of_mem _ hx))
      rw [splitWs] at ih2
      rw [ih2]
      simp

/-! ### Header round-trip: `parse_header` inverts `create_header` -/

theorem headerTokens_eq_tokensFrom (f : List Int) : headerTokens f = tokensFrom 0 f := rfl

theorem tokensFrom_cons (k : Nat) (x : Int) (g : List Int) :
    tokensFrom k (x :: g)
      = (if x ≠ 0 then [natToDigits k, intToStr x] else []) ++ tokensFrom (k + 1) g := by
  by_cases hx : x = 0 <;>
    simp [tokensFrom, pyEnumFrom, List.filter_cons, hx]

theorem pyListSet_nat (T : List Int) (k : Nat) (v : Int) (h : k < T.length) :
    pyListSet T (k : Int) v = some (T.set k v) := by
  have h0 : ¬((k : Int) < 0) := by omega
  have h1 : (0 : Int) ≤ (k : Int) ∧ (k : Int) < (T.length : Int) := by
    constructor <;> omega
  simp only [pyListSet, h0, if_false, h1, if_true, and_self, Int.toNat_natCast]

theorem parsePairs_tokensFrom :
    ∀ (g : List Int) (k : Nat) (T : List Int), T.length = 256 → k + g.length ≤ 256 →
      parsePairs (tokensFrom k g) T = .ok (updateNZ k g T) := by
  intro g
  induction g with
  | nil => intro k T _ _; rfl
  | cons x g ih =>
    intro k T hT hk
    rw [tokensFrom_cons]
    by_cases hx : x = 0
    · simp only [hx, ne_eq, not_true_eq_false, if_false, List.nil_append]
      rw [ih (k + 1) T hT (by simp only [List.length_cons] at hk; omega)]
      simp [updateNZ]
    · have hcons : (if x ≠ 0 then [natToDigits k, intToStr x] else []) ++ tokensFrom (k + 1) g
          = natToDigits k :: intToStr x :: tokensFrom (k + 1) g := by
        simp [hx]
      rw [hcons]
      have hklt : k < T.length := by simp only [List.length_cons] at hk; omega
      simp only [parsePairs, pyInt_natToDigits, pyInt_intToStr, pyListSet_nat T k x hklt]
      rw [ih (k + 1) (T.set k x) (by simp [hT]) (by simp only [List.length_cons] at hk; omega)]
      simp [updateNZ, hx]

theorem getD_set_ne (l : List Int) (i j : Nat) (a d : Int) (h : i ≠ j) :
    (l.set i a).getD j d = l.getD j d := by
  rw [List.getD_eq_getElem?_getD, List.getElem?_set_ne h, ← List.getD_eq_getElem?_getD]

theorem updateNZ_take :
    ∀ (g : List Int) (k : Nat) (T : List Int), k + g.length = T.length →
      (∀ j, k ≤ j → T.getD j 0 = 0) →
      updateNZ k g T = T.take k ++ g := by
  intro g
  induction g with
  | nil =>
    intro k T hk _
    have : k = T.length := by simpa using hk
    rw [updateNZ, this, List.take_length, List.append_nil]
  | cons x g ih =>
    intro k T hk hz
    have hklt : k < T.length := by simp only [List.length_cons] at hk; omega
    by_cases hx : x = 0
    · have hstep : updateNZ k (x :: g) T = updateNZ (k + 1) g T := by
        simp [updateNZ, hx]
      rw [hstep, ih (k + 1) T (by simp only [List.length_cons] at hk; omega)
        (fun j hj => hz j (by omega))]
      have hTk : T[k]? = some 0 := by
        rw [List.getElem?_eq_getElem hklt]
        have := hz k le_rfl
        rw [List.getD_eq_getElem?_getD, List.getElem?_eq_getElem hklt] at this
        simpa using this
      rw [List.take_succ, hTk, hx]
      simp
    · have hstep : updateNZ k (x :: g) T = updateNZ (k + 1) g (T.set k x) := by
        simp [updateNZ, hx]
      rw [hstep, ih (k + 1) (T.set k x) (by simp only [List.length_set, List.length_cons] at *; omega)
        (fun j hj => by rw [getD_set_ne _ _ _ _ _ (by omega)]; exact hz j (by omega))]
      have htk : (T.set k x).take k = T.take k := by
        rw [List.set_eq_take_append_cons_drop, if_pos hklt]
        exact List.take_left' (by simp [List.length_take]; omega)
      have hTk : (T.set k x)[k]? = some x := List.getElem?_set_eq_of_lt x hklt
      rw [List.take_succ, hTk, htk]
      simp

theorem getD_replicate_zero (n j : Nat) : (List.replicate n (0 : Int)).getD j 0 = 0 := by
  induction n generalizing j with
  | zero => rfl
  | succ m ih =>
    cases j with
    | zero => rfl
    | succ j => simp only [List.replicate_succ, List.getD_cons_succ]; exact ih j

theorem headerTokens_wf (f : List Int) :
    ∀ t ∈ headerTokens f, t ≠ [] ∧ ∀ c ∈ t, isSpC c = false := by
  intro t ht
  rw [headerTokens] at ht
  rcases List.mem_flatMap.1 ht with ⟨p, _, hp⟩
  simp only [List.mem_cons, List.not_mem_nil, or_false] at hp
  rcases hp with rfl | rfl
  · exact ⟨natToDigits_ne_nil _, natToDigits_not_space _⟩
  · exact ⟨intToStr_ne_nil _, intToStr_not_space _⟩

/-- General header round-trip over the embedding: parsing the created
header of any 256-entry table returns exactly that table. -/
theorem parse_header_create_header (f : List Int) (hf : f.length = 256) :
    parse_header (create_header f) = .ok f := by
  rw [parse_header, create_header, splitWs_joinSp _ (headerTokens_wf f),
    headerTokens_eq_tokensFrom,
    parsePairs_tokensFrom f 0 _ (by simp) (by omega),
    updateNZ_take f 0 _ (by simp [hf]) (fun j _ => getD_replicate_zero 256 j)]
  simp

/-! ### Rejection of malformed headers -/

theorem pyListSet_some_facts {l l' : List Int} {i v : Int}
    (h : pyListSet l i v = some l') :
    l'.length = l.length ∧ -(l.length : Int) ≤ i ∧ i < (l.length : Int) := by
  by_cases hi : i < 0
  · simp only [pyListSet, if_pos hi] at h
    split_ifs at h with hc
    injection h with h'
    subst h'
    refine ⟨by simp, by omega, by omega⟩
  · simp only [pyListSet, if_neg hi] at h
    split_ifs at h with hc
    injection h with h'
    subst h'
    refine ⟨by simp, by omega, by omega⟩

theorem parsePairs_bad :
    ∀ (toks : List (List Char)) (fl : List Int), fl.length = 256 → badToks toks →
      parsePairs toks fl = .error PyErr.valueError
  | [], fl, _, hbad => by
    rcases hbad with h | ⟨t, ht, _⟩ | ⟨i, t, v, hi, _, _⟩
    · simp at h
    · simp at ht
    · simp at hi
  | [t], fl, _, _ => rfl
  | t₁ :: t₂ :: rest, fl, hfl, hbad => by
    cases h₁ : pyInt t₁ with
    | none => simp [parsePairs, h₁]
    | some v₁ =>
      cases h₂ : pyInt t₂ with
      | none => simp [parsePairs, h₁, h₂]
      | some v₂ =>
        cases hset : pyListSet fl v₁ v₂ with
        | none => simp [parsePairs, h₁, h₂, hset]
        | some fl' =>
          obtain ⟨hlen', hlo, hhi⟩ := pyListSet_some_facts hset
          have hrec : badToks rest := by
            rcases hbad with hodd | ⟨t, htmem, htn⟩ | ⟨i, t, v, hi, hpv, hrange⟩
            · left
              simp only [List.length_cons] at hodd ⊢
              omega
            · right; left
              rcases List.mem_cons.1 htmem with rfl | htmem
              · rw [h₁] at htn; cases htn
              rcases List.mem_cons.1 htmem with rfl | htmem
              · rw [h₂] at htn; cases htn
              exact ⟨t, htmem, htn⟩
            · cases i with
              | zero =>
                simp only [Nat.mul_zero, List.getElem?_cons_zero, Option.some_inj] at hi
                subst hi
                rw [h₁] at hpv
                injection hpv with hpv
                subst hpv
                rw [hfl] at hlo hhi
                exfalso; omega
              | succ i =>
                right; right
                refine ⟨i, t, v, ?_, hpv, hrange⟩
                have h2i : 2 * (i + 1) = 2 * i + 1 + 1 := by ring
                rw [h2i, List.getElem?_cons_succ, List.getElem?_cons_succ] at hi
                exact hi
          have := parsePairs_bad rest fl' (by rw [hlen', hfl]) hrec
          simp [parsePairs, h₁, h₂, hset, this]

/-! ### Invariants of the tree construction -/

theorem insSorted_perm (a : HTree) : ∀ l : List HTree, (insSorted a l).Perm (a :: l) := by
  intro l
  induction l with
  | nil => exact List.Perm.refl _
  | cons b l ih =>
    rw [insSorted]
    split
    · exact List.Perm.refl _
    · exact (ih.cons b).trans (List.Perm.swap a b l)

theorem sortNodes_perm (l : List HTree) : (sortNodes l).Perm l := by
  suffices h : ∀ (l acc : List HTree), (l.foldl (fun acc a => insSorted a acc) acc).Perm (l ++ acc) by
    simpa using h l []
  intro l
  induction l with
  | nil => intro acc; simp
  | cons a l ih =>
    intro acc
    rw [List.foldl_cons]
    refine (ih (insSorted a acc)).trans ?_
    have p1 : (l ++ insSorted a acc).Perm (l ++ a :: acc) := (insSorted_perm a acc).append_left l
    have p2 : (l ++ a :: acc).Perm (a :: (l ++ acc)) := List.perm_middle
    exact p1.trans p2

theorem isFull_ne_nil {t : HTree} (h : isFull t = true) : t ≠ .nil := by
  intro hnil; subst hnil; cases h

theorem isFull_node_children {c : Nat} {f : Int} {l r : HTree}
    (h : isFull (.node c f l r) = true) (hnl : ¬(l = .nil ∧ r = .nil)) :
    isFull l = true ∧ isFull r = true := by
  rw [isFull, Bool.or_eq_true, Bool.and_eq_true, Bool.and_eq_true] at h
  rcases h with ⟨h1, h2⟩ | h
  · exact absurd ⟨of_decide_eq_true h1, of_decide_eq_true h2⟩ hnl
  · exact h

theorem isFull_combine {a b : HTree} (ha : isFull a = true) (hb : isFull b = true) :
    isFull (combine a b) = true := by
  rw [combine]
  split <;> rw [isFull] <;> simp [ha, hb]

theorem leafChars_combine {a b : HTree} (ha : isFull a = true) (hb : isFull b = true) :
    (leafChars (combine a b)).Perm (leafChars a ++ leafChars b) := by
  have hna := isFull_ne_nil ha
  have hnb := isFull_ne_nil hb
  rw [combine]
  split
  · rw [leafChars, if_neg (by rintro ⟨h1, h2⟩; exact hna h1)]
  · rw [leafChars, if_neg (by rintro ⟨h1, h2⟩; exact hnb h1)]
    exact List.perm_append_comm

theorem treeLoop_inv :
    ∀ (fuel : Nat) (L : List HTree), (∀ n ∈ L, isFull n = true) → L ≠ [] →
      L.length ≤ fuel + 1 →
      isFull (treeLoopAux fuel L) = true ∧
        (leafChars (treeLoopAux fuel L)).Perm (L.flatMap leafChars) := by
  intro fuel
  induction fuel with
  | zero =>
    intro L hfull hne hlen
    match L, hne with
    | [n], _ =>
      refine ⟨hfull n (List.mem_cons_self _ _), ?_⟩
      simp [treeLoopAux]
    | n₁ :: n₂ :: rest, _ => simp at hlen
  | succ f ih =>
    intro L hfull hne hlen
    match L, hne with
    | [n], _ =>
      refine ⟨hfull n (List.mem_cons_self _ _), ?_⟩
      simp [treeLoopAux]
    | n₁ :: n₂ :: rest, _ =>
      have hperm : (sortNodes (n₁ :: n₂ :: rest)).Perm (n₁ :: n₂ :: rest) :=
        sortNodes_perm _
      have hlen₂ : (sortNodes (n₁ :: n₂ :: rest)).length = rest.length + 2 := by
        rw [hperm.length_eq]; simp
      match hs : sortNodes (n₁ :: n₂ :: rest) with
      | [] => rw [hs] at hlen₂; simp at hlen₂
      | [x] => rw [hs] at hlen₂; simp at hlen₂
      | x :: y :: rest₂ =>
        rw [hs] at hperm hlen₂
        have hmem : ∀ n ∈ x :: y :: rest₂, isFull n = true := fun n hn =>
          hfull n (hperm.mem_iff.1 hn)
        have hx : isFull x = true := hmem x (List.mem_cons_self _ _)
        have hy : isFull y = true := hmem y (List.mem_cons_of_mem _ (List.mem_cons_self _ _))
        have hstep : treeLoopAux (f + 1) (n₁ :: n₂ :: rest)
            = treeLoopAux f (rest₂ ++ [combine x y]) := by
          rw [treeLoopAux, hs]
        have hfull' : ∀ n ∈ rest₂ ++ [combine x y], isFull n = true := by
          intro n hn
          rcases List.mem_append.1 hn with hn | hn
          · exact hmem n (List.mem_cons_of_mem _ (List.mem_cons_of_mem _ hn))
          · rcases List.mem_singleton.1 hn with rfl
            exact isFull_combine hx hy
        have hlen' : (rest₂ ++ [combine x y]).length ≤ f + 1 := by
          have : rest₂.length + 2 = rest.length + 2 := hlen₂
          simp only [List.length_append, List.length_singleton]
          simp only [List.length_cons] at hlen
          omega
        obtain ⟨hf, hp⟩ := ih (rest₂ ++ [combine x y]) hfull' (by simp) hlen'
        rw [hstep]
        refine ⟨hf, hp.trans ?_⟩
        have e1 : (rest₂ ++ [combine x y]).flatMap leafChars
            = rest₂.flatMap leafChars ++ leafChars (combine x y) := by
          rw [List.flatMap_append]; simp [List.flatMap_cons]
        have p2 : (rest₂.flatMap leafChars ++ leafChars (combine x y)).Perm
            (rest₂.flatMap leafChars ++ (leafChars x ++ leafChars y)) :=
          List.Perm.append_left _ (leafChars_combine hx hy)
        have p3 : (rest₂.flatMap leafChars ++ (leafChars x ++ leafChars y)).Perm
            ((leafChars x ++ leafChars y) ++ rest₂.flatMap leafChars) :=
          List.perm_append_comm
        have e4 : (leafChars x ++ leafChars y) ++ rest₂.flatMap leafChars
            = (x :: y :: rest₂).flatMap leafChars := by
          simp [List.flatMap_cons, List.append_assoc]
        have p5 : ((x :: y :: rest₂).flatMap leafChars).Perm
            ((n₁ :: n₂ :: rest).flatMap leafChars) :=
          List.Perm.flatMap_right leafChars hperm
        rw [e1]
        exact p2.trans (p3.trans (by rw [e4]; exact p5))

theorem initLeaves_flatMap (fl : List Int) :
    (initLeaves fl).flatMap leafChars = supportChars fl := by
  rw [initLeaves, supportChars]
  generalize (pyEnum fl).filter (fun p => decide (0 < p.2)) = ps
  induction ps with
  | nil => rfl
  | cons p ps ih => simp [List.flatMap_cons, ih, leafChars]

theorem initLeaves_length (fl : List Int) :
    (initLeaves fl).length = (supportChars fl).length := by
  rw [initLeaves, supportChars, List.length_map, List.length_map]

theorem pyEnumFrom_map_fst :
    ∀ (g : List Int) (k : Nat), (pyEnumFrom k g).map Prod.fst = List.range' k g.length := by
  intro g
  induction g with
  | nil => intro k; rfl
  | cons x g ih => intro k; simp [pyEnumFrom, List.range'_succ, ih]

theorem supportChars_nodup (fl : List Int) : (supportChars fl).Nodup := by
  have hsub : (supportChars fl).Sublist ((pyEnum fl).map Prod.fst) :=
    List.Sublist.map Prod.fst (List.filter_sublist _)
  refine hsub.nodup ?_
  rw [pyEnum, pyEnumFrom_map_fst]
  exact List.nodup_range' _ _

theorem mem_pyEnumFrom {j : Nat} {v : Int} :
    ∀ (g : List Int) (k : Nat), ((j, v) ∈ pyEnumFrom k g ↔ k ≤ j ∧ g[j - k]? = some v) := by
  intro g
  induction g with
  | nil => intro k; simp [pyEnumFrom]
  | cons x g ih =>
    intro k
    rw [pyEnumFrom, List.mem_cons, ih (k + 1)]
    constructor
    · rintro (h | ⟨hk, hg⟩)
      · injection h with h1 h2
        subst h1; subst h2
        simp
      · refine ⟨by omega, ?_⟩
        have hjk : j - k = (j - (k + 1)) + 1 := by omega
        rw [hjk, List.getElem?_cons_succ]
        exact hg
    · rintro ⟨hk, hg⟩
      rcases Nat.eq_or_lt_of_le hk with rfl | hlt
      · left
        simp only [Nat.sub_self, List.getElem?_cons_zero, Option.some_inj] at hg
        rw [hg]
      · right
        refine ⟨by omega, ?_⟩
        have hjk : j - k = (j - (k + 1)) + 1 := by omega
        rw [hjk, List.getElem?_cons_succ] at hg
        exact hg

theorem mem_supportChars {c : Nat} {fl : List Int} :
    c ∈ supportChars fl ↔ ∃ v : Int, fl[c]? = some v ∧ 0 < v := by
  rw [supportChars]
  constructor
  · intro h
    rcases List.mem_map.1 h with ⟨p, hp, hfst⟩
    rcases List.mem_filter.1 hp with ⟨hmem, hpos⟩
    obtain ⟨j, v⟩ := p
    rcases (mem_pyEnumFrom fl 0).1 hmem with ⟨-, hget⟩
    subst hfst
    refine ⟨v, by simpa using hget, by simpa using hpos⟩
  · rintro ⟨v, hget, hv⟩
    refine List.mem_map.2 ⟨(c, v), List.mem_filter.2 ⟨?_, by simpa using hv⟩, rfl⟩
    exact (mem_pyEnumFrom fl 0).2 ⟨Nat.zero_le _, by simpa using hget⟩

theorem create_huff_tree_inv (fl : List Int) (h : initLeaves fl ≠ []) :
    isFull (create_huff_tree fl) = true ∧
      (leafChars (create_huff_tree fl)).Perm (supportChars fl) := by
  have hfull : ∀ n ∈ initLeaves fl, isFull n = true := by
    intro n hn
    rcases List.mem_map.1 hn with ⟨p, -, rfl⟩
    rfl
  obtain ⟨h1, h2⟩ := treeLoop_inv (initLeaves fl).length (initLeaves fl) hfull h (by omega)
  exact ⟨h1, by rwa [initLeaves_flatMap] at h2⟩

/-! ### Codes are leaf paths -/

theorem nodeAt_append (p q : List Char) :
    ∀ t : HTree, nodeAt t (p ++ q) = (nodeAt t p).bind (fun m => nodeAt m q) := by
  induction p with
  | nil => intro t; cases t <;> rfl
  | cons ch p ih =>
    intro t
    cases t with
    | nil => rfl
    | node c f l r =>
      rw [List.cons_append, nodeAt, nodeAt]
      split_ifs <;> simp [ih]

theorem traverse_mem_path :
    ∀ (t : HTree) (code₀ : List Char) (c : Nat) (p : List Char),
      (c, p) ∈ traverseCode t code₀ →
      ∃ q, p = code₀ ++ q ∧ (∀ ch ∈ q, ch = '0' ∨ ch = '1') ∧
        ∃ f : Int, nodeAt t q = some (.node c f .nil .nil) := by
  intro t
  induction t with
  | nil => intro code₀ c p h; cases h
  | node c₀ f₀ l r ihl ihr =>
    intro code₀ c p h
    rw [traverseCode] at h
    rcases List.mem_append.1 h with h | h
    · rcases List.mem_append.1 h with h | h
      · by_cases hleaf : l = .nil ∧ r = .nil
        · rw [if_pos hleaf] at h
          rcases List.mem_singleton.1 h with h
          injection h with h1 h2
          subst h1; subst h2
          refine ⟨[], by simp, by simp, f₀, ?_⟩
          rw [nodeAt, hleaf.1, hleaf.2]
        · rw [if_neg hleaf] at h; cases h
      · obtain ⟨q, hq, hbits, f, hat⟩ := ihl _ c p h
        refine ⟨'0' :: q, by simp [hq], ?_, f, ?_⟩
        · intro ch hch
          rcases List.mem_cons.1 hch with rfl | hch
          · exact Or.inl rfl
          · exact hbits ch hch
        · rw [nodeAt, if_pos rfl]; exact hat
    · obtain ⟨q, hq, hbits, f, hat⟩ := ihr _ c p h
      refine ⟨'1' :: q, by simp [hq], ?_, f, ?_⟩
      · intro ch hch
        rcases List.mem_cons.1 hch with rfl | hch
        · exact Or.inr rfl
        · exact hbits ch hch
      · rw [nodeAt, if_neg (by decide), if_pos rfl]; exact hat

theorem traverse_map_fst :
    ∀ (t : HTree) (code₀ : List Char), (traverseCode t code₀).map Prod.fst = leafChars t := by
  intro t
  induction t with
  | nil => intro code₀; rfl
  | node c₀ f₀ l r ihl ihr =>
    intro code₀
    rw [traverseCode, leafChars]
    by_cases hleaf : l = .nil ∧ r = .nil
    · rw [if_pos hleaf, if_pos hleaf, hleaf.1, hleaf.2]
      rfl
    · rw [if_neg hleaf, if_neg hleaf]
      simp [ihl, ihr]

theorem getD_set_self_lc (T : List (List Char)) (i : Nat) (v : List Char)
    (h : i < T.length) : (T.set i v).getD i [] = v := by
  rw [List.getD_eq_getElem?_getD, List.getElem?_set_eq_of_lt v h]
  rfl

theorem getD_set_diff_lc (T : List (List Char)) (i j : Nat) (v : List Char)
    (h : i ≠ j) : (T.set i v).getD j [] = T.getD j [] := by
  rw [List.getD_eq_getElem?_getD, List.getElem?_set_ne h, ← List.getD_eq_getElem?_getD]

theorem getD_replicate_nil (n j : Nat) :
    (List.replicate n ([] : List Char)).getD j [] = [] := by
  induction n generalizing j with
  | zero => rfl
  | succ m ih =>
    cases j with
    | zero => rfl
    | succ j => simp only [List.replicate_succ, List.getD_cons_succ]; exact ih j

theorem foldl_set_not_mem :
    ∀ (pairs : List (Nat × List Char)) (T : List (List Char)) (c : Nat),
      (∀ p, (c, p) ∉ pairs) →
      (pairs.foldl (fun cs (p : Nat × List Char) => cs.set p.1 p.2) T).getD c []
        = T.getD c [] := by
  intro pairs
  induction pairs with
  | nil => intro T c _; rfl
  | cons q pairs ih =>
    intro T c hnot
    obtain ⟨c₀, p₀⟩ := q
    rw [List.foldl_cons]
    have hc : c₀ ≠ c := by
      rintro rfl
      exact hnot p₀ (List.mem_cons_self _ _)
    rw [ih _ c (fun p hp => hnot p (List.mem_cons_of_mem _ hp))]
    exact getD_set_diff_lc T c₀ c p₀ hc

theorem foldl_set_mem :
    ∀ (pairs : List (Nat × List Char)) (T : List (List Char)) (c : Nat) (p : List Char),
      (pairs.map Prod.fst).Nodup → (c, p) ∈ pairs → c < T.length →
      (pairs.foldl (fun cs (q : Nat × List Char) => cs.set q.1 q.2) T).getD c [] = p := by
  intro pairs
  induction pairs with
  | nil => intro T c p _ h _; cases h
  | cons q pairs ih =>
    intro T c p hnd hmem hlt
    obtain ⟨c₀, p₀⟩ := q
    rw [List.map_cons, List.nodup_cons] at hnd
    rw [List.foldl_cons]
    rcases List.mem_cons.1 hmem with heq | hmem
    · injection heq with h1 h2
      subst h1; subst h2
      rw [foldl_set_not_mem pairs _ c ?hnp]
      · exact getD_set_self_lc T c p hlt
      case hnp =>
        intro pp hpp
        exact hnd.1 (List.mem_map.2 ⟨(c, pp), hpp, rfl⟩)
    · exact ih _ c p hnd.2 hmem (by simpa using hlt)

theorem listPfx_iff (p : List Char) :
    ∀ q, listPfx p q = true ↔ ∃ ext, p ++ ext = q := by
  induction p with
  | nil => intro q; simp [listPfx]
  | cons a p ih =>
    intro q
    cases q with
    | nil =>
      simp only [listPfx, Bool.false_eq_true, false_iff]
      rintro ⟨ext, hext⟩
      cases hext
    | cons b q =>
      rw [listPfx, Bool.and_eq_true, decide_eq_true_iff, ih q]
      constructor
      · rintro ⟨rfl, ext, rfl⟩
        exact ⟨ext, rfl⟩
      · rintro ⟨ext, hext⟩
        injection hext with h1 h2
        exact ⟨h1, ext, h2⟩

theorem nodeAt_from_leaf {c : Nat} {f : Int} {ext : List Char} {c₂ : Nat} {f₂ : Int}
    {l₂ r₂ : HTree}
    (h : nodeAt (.node c f .nil .nil) ext = some (.node c₂ f₂ l₂ r₂)) :
    ext = [] ∧ c₂ = c := by
  cases ext with
  | nil =>
    refine ⟨rfl, ?_⟩
    injection h with h'
    injection h' with hc _ _ _
    exact hc.symm
  | cons ch ext =>
    exfalso
    rw [nodeAt] at h
    split_ifs at h <;>
      cases ext with
      | nil =>
        rw [nodeAt] at h
        injection h with h'
        exact HTree.noConfusion h'
      | cons ch₂ ext =>
        rw [nodeAt] at h
        cases h

theorem traverse_antichain {t : HTree} {c₁ c₂ : Nat} {p₁ p₂ : List Char}
    (h₁ : (c₁, p₁) ∈ traverseCode t []) (h₂ : (c₂, p₂) ∈ traverseCode t [])
    (hne : c₁ ≠ c₂) : ¬(listPfx p₁ p₂ = true) := by
  intro hpfx
  obtain ⟨q₁, hq₁, _, f₁, hat₁⟩ := traverse_mem_path t [] c₁ p₁ h₁
  obtain ⟨q₂, hq₂, _, f₂, hat₂⟩ := traverse_mem_path t [] c₂ p₂ h₂
  simp only [List.nil_append] at hq₁ hq₂
  subst hq₁; subst hq₂
  obtain ⟨ext, hext⟩ := (listPfx_iff _ _).1 hpfx
  subst hext
  rw [nodeAt_append, hat₁] at hat₂
  simp only [Option.some_bind] at hat₂
  obtain ⟨-, hc⟩ := nodeAt_from_leaf hat₂
  exact hne hc.symm

/-! ### Behaviour of the decode loop -/

theorem leafChars_ne_nil_of_full : ∀ t : HTree, isFull t = true → leafChars t ≠ [] := by
  intro t
  induction t with
  | nil => intro h; cases h
  | node c f l r ihl ihr =>
    intro h
    rw [leafChars]
    by_cases hleaf : l = .nil ∧ r = .nil
    · rw [if_pos hleaf]; simp
    · rw [if_neg hleaf]
      obtain ⟨hfl, hfr⟩ := isFull_node_children h hleaf
      simp [ihl hfl, ihr hfr]

theorem decodeLoop_follow (root : HTree) :
    ∀ (p : List Char) (m : HTree) (lc : Nat) (lf : Int) (rest : List Char),
      p ≠ [] → (∀ ch ∈ p, ch = '0' ∨ ch = '1') →
      nodeAt m p = some (.node lc lf .nil .nil) →
      decodeLoop root m (p ++ rest)
        = (decodeLoop root root rest).map (fun out => lc :: out) := by
  intro p
  induction p with
  | nil => intro m lc lf rest hne _ _; exact absurd rfl hne
  | cons ch p ih =>
    intro m lc lf rest _ hbits hat
    cases m with
    | nil => rw [nodeAt] at hat; cases hat
    | node c f l r =>
      rw [nodeAt] at hat
      have hch : ch = '0' ∨ ch = '1' := hbits ch (List.mem_cons_self _ _)
      rcases hch with rfl | rfl
      · rw [if_pos rfl] at hat
        rw [List.cons_append, decodeLoop]
        have hstep : stepNode (.node c f l r) '0' = some l := by
          rw [stepNode, if_pos rfl]
        rw [hstep]
        cases p with
        | nil =>
          cases l with
          | nil => rw [nodeAt] at hat; exact absurd hat (by simp)
          | node mc mf ml mr =>
            rw [nodeAt] at hat
            injection hat with h'
            injection h' with e1 e2 e3 e4
            subst e1; subst e2; subst e3; subst e4
            simp
        | cons ch₂ p₂ =>
          cases l with
          | nil => rw [nodeAt] at hat; cases hat
          | node mc mf ml mr =>
            by_cases hleaf : ml = .nil ∧ mr = .nil
            · exfalso
              rcases hleaf with ⟨rfl, rfl⟩
              obtain ⟨habs, -⟩ := nodeAt_from_leaf hat
              cases habs
            · have hrec := ih (.node mc mf ml mr) lc lf rest (by simp)
                (fun x hx => hbits x (List.mem_cons_of_mem _ hx)) hat
              dsimp only
              rw [if_neg hleaf]
              exact hrec
      · rw [if_neg (by decide), if_pos rfl] at hat
        rw [List.cons_append, decodeLoop]
        have hstep : stepNode (.node c f l r) '1' = some r := by
          rw [stepNode, if_neg (by decide), if_pos rfl]
        rw [hstep]
        cases p with
        | nil =>
          cases r with
          | nil => rw [nodeAt] at hat; exact absurd hat (by simp)
          | node mc mf ml mr =>
            rw [nodeAt] at hat
            injection hat with h'
            injection h' with e1 e2 e3 e4
            subst e1; subst e2; subst e3; subst e4
            simp
        | cons ch₂ p₂ =>
          cases r with
          | nil => rw [nodeAt] at hat; cases hat
          | node mc mf ml mr =>
            by_cases hleaf : ml = .nil ∧ mr = .nil
            · exfalso
              rcases hleaf with ⟨rfl, rfl⟩
              obtain ⟨habs, -⟩ := nodeAt_from_leaf hat
              cases habs
            · have hrec := ih (.node mc mf ml mr) lc lf rest (by simp)
                (fun x hx => hbits x (List.mem_cons_of_mem _ hx)) hat
              dsimp only
              rw [if_neg hleaf]
              exact hrec

theorem decodeLoop_concat (t : HTree) (codes : List (List Char)) :
    ∀ s : List Nat,
      (∀ b ∈ s, codes.getD b [] ≠ [] ∧ (∀ ch ∈ codes.getD b [], ch = '0' ∨ ch = '1') ∧
        ∃ f : Int, nodeAt t (codes.getD b []) = some (.node b f .nil .nil)) →
      decodeLoop t t (s.flatMap (fun b => codes.getD b [])) = .ok s := by
  intro s
  induction s with
  | nil => intro _; rfl
  | cons b s ih =>
    intro h
    obtain ⟨hne, hbits, f, hat⟩ := h b (List.mem_cons_self _ _)
    rw [List.flatMap_cons, decodeLoop_follow t (codes.getD b []) t b f _ hne hbits hat,
      ih (fun x hx => h x (List.mem_cons_of_mem _ hx))]
    rfl

theorem decodeLoop_total :
    ∀ (bits : List Char) (root cur : HTree),
      isFull root = true → isLeafB root = false →
      isFull cur = true → isLeafB cur = false →
      ∃ out, decodeLoop root cur bits = .ok out := by
  intro bits
  induction bits with
  | nil => intro root cur _ _ _ _; exact ⟨[], rfl⟩
  | cons ch rest ih =>
    intro root cur h1 h2 h3 h4
    cases cur with
    | nil => cases h3
    | node c f l r =>
      have hnl : ¬(l = .nil ∧ r = .nil) := by
        rw [isLeafB] at h4
        intro hand
        simp [hand.1, hand.2] at h4
      obtain ⟨hfl, hfr⟩ := isFull_node_children h3 hnl
      by_cases hc0 : ch = '0'
      · subst hc0
        rw [decodeLoop]
        have hstep : stepNode (.node c f l r) '0' = some l := by
          rw [stepNode, if_pos rfl]
        rw [hstep]
        cases l with
        | nil => cases hfl
        | node mc mf ml mr =>
          dsimp only
          by_cases hleaf : ml = .nil ∧ mr = .nil
          · rw [if_pos hleaf]
            obtain ⟨out, hout⟩ := ih root root h1 h2 h1 h2
            exact ⟨mc :: out, by rw [hout]; rfl⟩
          · rw [if_neg hleaf]
            refine ih root _ h1 h2 hfl ?_
            rw [isLeafB]
            rcases not_and_or.1 hleaf with h | h <;> simp [h]
      · by_cases hc1 : ch = '1'
        · subst hc1
          rw [decodeLoop]
          have hstep : stepNode (.node c f l r) '1' = some r := by
            rw [stepNode, if_neg (by decide), if_pos rfl]
          rw [hstep]
          cases r with
          | nil => cases hfr
          | node mc mf ml mr =>
            dsimp only
            by_cases hleaf : ml = .nil ∧ mr = .nil
            · rw [if_pos hleaf]
              obtain ⟨out, hout⟩ := ih root root h1 h2 h1 h2
              exact ⟨mc :: out, by rw [hout]; rfl⟩
            · rw [if_neg hleaf]
              refine ih root _ h1 h2 hfr ?_
              rw [isLeafB]
              rcases not_and_or.1 hleaf with h | h <;> simp [h]
        · rw [decodeLoop]
          have hstep : stepNode (.node c f l r) ch = some (.node c f l r) := by
            rw [stepNode, if_neg hc0, if_neg hc1]
          rw [hstep]
          dsimp only
          rw [if_neg hnl]
          exact ih root _ h1 h2 h3 h4

theorem decodeLoop_nil_tree (bits : List Char)
    (h : decodeLoop .nil .nil bits ≠ .error PyErr.attributeError) : bits = [] := by
  cases bits with
  | nil => rfl
  | cons ch rest =>
    exfalso
    apply h
    rw [decodeLoop]
    by_cases hc0 : ch = '0'
    · rw [stepNode, if_pos hc0]
    · by_cases hc1 : ch = '1'
      · rw [stepNode, if_neg hc0, if_pos hc1]
      · rw [stepNode, if_neg hc0, if_neg hc1]

theorem decodeLoop_single_leaf (c : Nat) (f : Int) :
    ∀ bits : List Char,
      decodeLoop (.node c f .nil .nil) (.node c f .nil .nil) bits
        ≠ .error PyErr.attributeError →
      ∀ ch ∈ bits, ¬(ch = '0' ∨ ch = '1') := by
  intro bits
  induction bits with
  | nil => intro _ ch hch; cases hch
  | cons ch rest ih =>
    intro h ch' hmem
    by_cases hc0 : ch = '0'
    · exfalso
      apply h
      subst hc0
      rw [decodeLoop]
      have hstep : stepNode (.node c f .nil .nil) '0' = some .nil := by
        rw [stepNode, if_pos rfl]
      rw [hstep]
    · by_cases hc1 : ch = '1'
      · exfalso
        apply h
        subst hc1
        rw [decodeLoop]
        have hstep : stepNode (.node c f .nil .nil) '1' = some .nil := by
          rw [stepNode, if_neg (by decide), if_pos rfl]
        rw [hstep]
      · have hrest : decodeLoop (.node c f .nil .nil) (.node c f .nil .nil) rest
            ≠ .error PyErr.attributeError := by
          intro habs
          apply h
          rw [decodeLoop]
          have hstep : stepNode (.node c f .nil .nil) ch = some (.node c f .nil .nil) := by
            rw [stepNode, if_neg hc0, if_neg hc1]
          rw [hstep]
          dsimp only
          rw [if_pos ⟨rfl, rfl⟩, habs]
          rfl
        rcases List.mem_cons.1 hmem with rfl | hmem
        · rintro (h | h)
          · exact hc0 h
          · exact hc1 h
        · exact ih hrest ch' hmem

/-! ### Shapes of the built tree by support size -/

theorem create_huff_tree_empty (fl : List Int) (h : initLeaves fl = []) :
    create_huff_tree fl = .nil := by
  rw [create_huff_tree, h]
  rfl

theorem create_huff_tree_single (fl : List Int) (h : (initLeaves fl).length = 1) :
    ∃ c : Nat, ∃ f : Int, create_huff_tree fl = .node c f .nil .nil
      ∧ supportChars fl = [c] := by
  have hne : initLeaves fl ≠ [] := by
    intro habs; rw [habs] at h; cases h
  obtain ⟨hfull, hperm⟩ := create_huff_tree_inv fl hne
  have hlen : (leafChars (create_huff_tree fl)).length = 1 := by
    rw [hperm.length_eq, ← initLeaves_length fl, h]
  cases htree : create_huff_tree fl with
  | nil => rw [htree] at hfull; cases hfull
  | node c f l r =>
    rw [htree] at hfull hperm hlen
    by_cases hleaf : l = .nil ∧ r = .nil
    · rcases hleaf with ⟨rfl, rfl⟩
      refine ⟨c, f, rfl, ?_⟩
      have hlc : leafChars (HTree.node c f .nil .nil) = [c] := rfl
      rw [hlc] at hperm
      exact (List.singleton_perm.1 hperm).symm
    · exfalso
      obtain ⟨hfl, hfr⟩ := isFull_node_children hfull hleaf
      rw [leafChars, if_neg hleaf, List.length_append] at hlen
      have h1 : leafChars l ≠ [] := leafChars_ne_nil_of_full l hfl
      have h2 : leafChars r ≠ [] := leafChars_ne_nil_of_full r hfr
      have := List.length_pos.2 h1
      have := List.length_pos.2 h2
      omega

theorem create_huff_tree_internal (fl : List Int) (h : 2 ≤ (initLeaves fl).length) :
    isFull (create_huff_tree fl) = true ∧ isLeafB (create_huff_tree fl) = false ∧
      (leafChars (create_huff_tree fl)).Perm (supportChars fl) := by
  have hne : initLeaves fl ≠ [] := by
    intro habs; rw [habs] at h; cases h
  obtain ⟨hfull, hperm⟩ := create_huff_tree_inv fl hne
  refine ⟨hfull, ?_, hperm⟩
  have hlen : 2 ≤ (leafChars (create_huff_tree fl)).length := by
    rw [hperm.length_eq, ← initLeaves_length fl]
    exact h
  cases htree : create_huff_tree fl with
  | nil => rw [htree] at hfull; cases hfull
  | node c f l r =>
    rw [htree] at hlen
    rw [isLeafB]
    by_cases hleaf : l = .nil ∧ r = .nil
    · exfalso
      rw [leafChars, if_pos hleaf] at hlen
      simp at hlen
    · rcases not_and_or.1 hleaf with hh | hh <;> simp [hh]

/-! ### Frequency counting -/

theorem getD_set_self_int (T : List Int) (i : Nat) (v : Int) (h : i < T.length) :
    (T.set i v).getD i 0 = v := by
  rw [List.getD_eq_getElem?_getD, List.getElem?_set_eq_of_lt v h]
  rfl

theorem cnt_freq_foldl_length :
    ∀ (s : List Nat) (fl : List Int),
      (s.foldl (fun fl b => fl.set b (fl.getD b 0 + 1)) fl).length = fl.length := by
  intro s
  induction s with
  | nil => intro fl; rfl
  | cons a s ih => intro fl; rw [List.foldl_cons, ih, List.length_set]

theorem cnt_freq_length (s : List Nat) : (cnt_freq_list s).length = 256 := by
  rw [cnt_freq_list, cnt_freq_foldl_length]
  rfl

theorem cnt_freq_foldl_getD :
    ∀ (s : List Nat) (fl : List Int) (b : Nat), b < fl.length →
      (s.foldl (fun fl b => fl.set b (fl.getD b 0 + 1)) fl).getD b 0
        = fl.getD b 0 + (s.count b : Int) := by
  intro s
  induction s with
  | nil => intro fl b _; simp
  | cons a s ih =>
    intro fl b hb
    rw [List.foldl_cons, ih _ b (by rw [List.length_set]; exact hb)]
    by_cases hab : a = b
    · subst hab
      rw [getD_set_self_int fl a _ hb, List.count_cons]
      simp only [beq_self_eq_true, if_true]
      push_cast
      ring
    · rw [getD_set_ne fl a b _ 0 hab, List.count_cons]
      have hba : (a == b) = false := by simp [hab]
      rw [hba]
      simp

theorem cnt_freq_getD (s : List Nat) (b : Nat) (hb : b < 256) :
    (cnt_freq_list s).getD b 0 = (s.count b : Int) := by
  rw [cnt_freq_list, cnt_freq_foldl_getD s _ b (by simp; omega)]
  rw [getD_replicate_zero]
  simp

theorem mem_support_cnt (s : List Nat) (b : Nat) (hb : b < 256) :
    b ∈ supportChars (cnt_freq_list s) ↔ b ∈ s := by
  rw [mem_supportChars]
  have hblen : b < (cnt_freq_list s).length := by rw [cnt_freq_length]; exact hb
  constructor
  · rintro ⟨v, hv, hpos⟩
    rw [List.getElem?_eq_getElem hblen, Option.some_inj] at hv
    have hgd : (cnt_freq_list s).getD b 0 = v := by
      rw [List.getD_eq_getElem?_getD, List.getElem?_eq_getElem hblen, hv]
      rfl
    rw [cnt_freq_getD s b hb] at hgd
    have : 0 < s.count b := by exact_mod_cast hgd ▸ hpos
    exact List.count_pos_iff.1 this
  · intro hmem
    refine ⟨(s.count b : Int), ?_, by exact_mod_cast List.count_pos_iff.2 hmem⟩
    rw [List.getElem?_eq_getElem hblen, Option.some_inj]
    have := cnt_freq_getD s b hb
    rw [List.getD_eq_getElem?_getD, List.getElem?_eq_getElem hblen] at this
    exact this

theorem two_le_length_of_two_mem {l : List Nat} {x y : Nat}
    (hx : x ∈ l) (hy : y ∈ l) (h : x ≠ y) : 2 ≤ l.length := by
  cases l with
  | nil => cases hx
  | cons a l =>
    cases l with
    | nil =>
      rcases List.mem_singleton.1 hx with rfl
      rcases List.mem_singleton.1 hy with rfl
      exact absurd rfl h
    | cons b l => simp

/-! ### The code table holds exactly the leaf paths -/

theorem codes_support (fl : List Int) (hlen : fl.length = 256)
    (h2 : 2 ≤ (initLeaves fl).length) {b : Nat} (hb : b ∈ supportChars fl) :
    (create_code (create_huff_tree fl)).getD b [] ≠ [] ∧
      (∀ ch ∈ (create_code (create_huff_tree fl)).getD b [], ch = '0' ∨ ch = '1') ∧
      ∃ f : Int,
        nodeAt (create_huff_tree fl) ((create_code (create_huff_tree fl)).getD b [])
          = some (.node b f .nil .nil) := by
  obtain ⟨hfull, hnleaf, hperm⟩ := create_huff_tree_internal fl h2
  have hnodup : (leafChars (create_huff_tree fl)).Nodup :=
    hperm.symm.nodup (supportChars_nodup fl)
  have hbleaf : b ∈ leafChars (create_huff_tree fl) := hperm.mem_iff.2 hb
  have hb256 : b < 256 := by
    obtain ⟨v, hv, -⟩ := mem_supportChars.1 hb
    have : b < fl.length := by
      by_contra habs
      rw [List.getElem?_eq_none (by omega)] at hv
      cases hv
    omega
  cases htree : create_huff_tree fl with
  | nil => rw [htree] at hfull; cases hfull
  | node c f l r =>
    rw [htree] at hperm hnleaf hnodup hbleaf
    have hbmap : b ∈ (traverseCode (.node c f l r) []).map Prod.fst := by
      rw [traverse_map_fst]; exact hbleaf
    obtain ⟨⟨b', p⟩, hpair, hfst⟩ := List.mem_map.1 hbmap
    simp only at hfst
    rw [hfst] at hpair
    have hnodup' : ((traverseCode (.node c f l r) []).map Prod.fst).Nodup := by
      rw [traverse_map_fst]; exact hnodup
    have hcode : (create_code (.node c f l r)).getD b [] = p := by
      rw [create_code]
      exact foldl_set_mem _ _ b p hnodup' hpair (by simp [hb256])
    obtain ⟨q, hq, hbits, f', hat⟩ := traverse_mem_path _ [] b p hpair
    simp only [List.nil_append] at hq
    subst hq
    refine ⟨?_, by rw [hcode]; exact hbits, f', by rw [hcode]; exact hat⟩
    rw [hcode]
    intro habs
    subst habs
    rw [nodeAt] at hat
    injection hat with h'
    rw [h'] at hnleaf
    cases hnleaf

theorem codes_zero (fl : List Int) {b : Nat} (hb : b ∉ supportChars fl) :
    (create_code (create_huff_tree fl)).getD b [] = [] := by
  by_cases hinit : initLeaves fl = []
  · rw [create_huff_tree_empty fl hinit, create_code]
    exact getD_replicate_nil 256 b
  · obtain ⟨hfull, hperm⟩ := create_huff_tree_inv fl hinit
    have hbleaf : b ∉ leafChars (create_huff_tree fl) := fun h => hb (hperm.mem_iff.1 h)
    cases htree : create_huff_tree fl with
    | nil => rw [create_code]; exact getD_replicate_nil 256 b
    | node c f l r =>
      rw [htree] at hbleaf
      rw [create_code, foldl_set_not_mem _ _ b ?hnp]
      · exact getD_replicate_nil 256 b
      case hnp =>
        intro p hp
        exact hbleaf (by rw [← traverse_map_fst _ []]; exact List.mem_map.2 ⟨(b, p), hp, rfl⟩)

/-! ### Remaining helpers for the claim theorems -/

theorem flatMap_if_lt (codes : List (List Char)) :
    ∀ s : List Nat, (∀ b ∈ s, b < 256) →
      s.flatMap (fun b => if b < 256 then codes.getD b [] else [])
        = s.flatMap (fun b => codes.getD b []) := by
  intro s
  induction s with
  | nil => intro _; rfl
  | cons a s ih =>
    intro h
    rw [List.flatMap_cons, List.flatMap_cons, if_pos (h a (List.mem_cons_self _ _)),
      ih (fun b hb => h b (List.mem_cons_of_mem _ hb))]

theorem foldl_set_getD_cases :
    ∀ (pairs : List (Nat × List Char)) (T : List (List Char)) (c : Nat),
      (pairs.foldl (fun cs (q : Nat × List Char) => cs.set q.1 q.2) T).getD c []
          = T.getD c []
        ∨ ∃ p, (c, p) ∈ pairs ∧
          (pairs.foldl (fun cs (q : Nat × List Char) => cs.set q.1 q.2) T).getD c [] = p := by
  intro pairs
  induction pairs with
  | nil => intro T c; exact Or.inl rfl
  | cons q pairs ih =>
    intro T c
    obtain ⟨c₀, p₀⟩ := q
    rw [List.foldl_cons]
    rcases ih (T.set c₀ p₀) c with h | ⟨p, hp, hval⟩
    · by_cases hc : c₀ = c
      · subst hc
        by_cases hlt : c₀ < T.length
        · right
          exact ⟨p₀, List.mem_cons_self _ _, by rw [h, getD_set_self_lc T c₀ p₀ hlt]⟩
        · left
          rw [h, List.set_eq_of_length_le (by omega)]
      · left
        rw [h, getD_set_diff_lc T c₀ c p₀ hc]
    · right
      exact ⟨p, List.mem_cons_of_mem _ hp, hval⟩

theorem comes_before_iff (a b : HTree) : comes_before a b = true ↔ specPrecedes a b := by
  rw [comes_before, specPrecedes]
  by_cases hf : a.freq = b.freq
  · simp [hf]
  · simp [hf]

/-! ### Claim theorems -/

/-- C1 (amended): for every byte sequence containing at least two distinct
byte values, decoding the output of encoding it (header from
`create_header`, per-byte codes consumed by the `huffman_decode` loop)
yields exactly the input.  (As stated over all non-empty inputs the claim
fails: see the single-symbol counterexample.) -/
theorem huffman_roundtrip_two_distinct (s : List Nat)
    (hlt : ∀ b ∈ s, b < 256) (hdist : ∃ x ∈ s, ∃ y ∈ s, x ≠ y) :
    huffman_decode_core (huffman_encode_core s).1 (huffman_encode_core s).2
      = Except.ok s := by
  obtain ⟨x, hx, y, hy, hxy⟩ := hdist
  have hlen : (cnt_freq_list s).length = 256 := cnt_freq_length s
  have h2 : 2 ≤ (initLeaves (cnt_freq_list s)).length := by
    rw [initLeaves_length]
    exact two_le_length_of_two_mem
      ((mem_support_cnt s x (hlt x hx)).2 hx)
      ((mem_support_cnt s y (hlt y hy)).2 hy) hxy
  obtain ⟨hfull, hnleaf, hperm⟩ := create_huff_tree_internal _ h2
  cases htree : create_huff_tree (cnt_freq_list s) with
  | nil => rw [htree] at hfull; cases hfull
  | node c f l r =>
    have h1 : (huffman_encode_core s).1 = create_header (cnt_freq_list s) := rfl
    have hbits : (huffman_encode_core s).2
        = s.flatMap (fun b => (create_code (HTree.node c f l r)).getD b []) := by
      rw [huffman_encode_core]
      dsimp only
      rw [htree]
      dsimp only
      exact flatMap_if_lt _ s hlt
    rw [h1, hbits, huffman_decode_core, parse_header_create_header _ hlen]
    dsimp only
    rw [htree]
    apply decodeLoop_concat
    intro b hbmem
    have hbsupp : b ∈ supportChars (cnt_freq_list s) :=
      (mem_support_cnt s b (hlt b hbmem)).2 hbmem
    have hfacts := codes_support (cnt_freq_list s) hlen h2 hbsupp
    rw [htree] at hfacts
    exact hfacts

/-- C1 witness: the round-trip theorem applied to the concrete input
`[97, 98, 97]`. -/
theorem huffman_roundtrip_witness :
    huffman_decode_core (huffman_encode_core [97, 98, 97]).1
      (huffman_encode_core [97, 98, 97]).2 = Except.ok [97, 98, 97] :=
  huffman_roundtrip_two_distinct [97, 98, 97] (by decide)
    ⟨97, by decide, 98, by decide, by decide⟩

/-- C1 counterexample: the claim as stated fails on the non-empty input
`[97]` (one distinct byte): the single leaf gets the empty code, the
bitstream is empty, and decoding returns the empty output, not `[97]`. -/
theorem huffman_roundtrip_single_symbol_fails :
    ([97] : List Nat) ≠ [] ∧
      huffman_decode_core (huffman_encode_core [97]).1 (huffman_encode_core [97]).2
        ≠ Except.ok [97] := by
  refine ⟨by simp, ?_⟩
  intro h
  have heval : huffman_decode_core (huffman_encode_core [97]).1
      (huffman_encode_core [97]).2 = Except.ok [] := by rfl
  rw [heval] at h
  injection h with h'
  cases h'

/-- C2 (amended): `huffman_decode` raises no error at all on these inputs,
let alone a DecodeError: whenever the parsed table has at least two
non-zero entries, the traversal returns an output for every bitstream —
characters other than '0'/'1' are skipped and a bitstream ending mid-code
silently yields the truncated output. -/
theorem decode_no_decode_error (header bits : List Char) (fl : List Int)
    (hparse : parse_header header = .ok fl) (h2 : 2 ≤ (initLeaves fl).length) :
    ∃ out, huffman_decode_core header bits = Except.ok out := by
  rw [huffman_decode_core, hparse]
  obtain ⟨hfull, hnleaf, -⟩ := create_huff_tree_internal fl h2
  exact decodeLoop_total bits _ _ hfull hnleaf hfull hnleaf

/-- C2 witness: decoding the header `"97 1 98 1"` with the bitstream
`"x01x"` (an invalid character, a complete code, and a truncated tail)
returns an output with no error. -/
theorem decode_no_decode_error_witness :
    ∃ out, huffman_decode_core "97 1 98 1".toList "x01x".toList = Except.ok out :=
  decode_no_decode_error _ _ (((List.replicate 256 (0 : Int)).set 97 1).set 98 1)
    (by rfl) (by decide)

/-- C2 counterexample: the claim as stated fails — a bitstream with the
invalid character 'x' decodes without any error to the empty output, and a
bitstream ending mid-code ("00" against the known-vector tree) also
returns ok, silently truncating. -/
theorem decode_error_counterexample :
    huffman_decode_core "97 1 98 1".toList "x".toList = Except.ok []
      ∧ huffman_decode_core "97 2 98 4 99 8 100 16 102 2".toList "00".toList
          = Except.ok [] :=
  ⟨rfl, rfl⟩

/-- C3 (amended): `parse_header` raises ParseError (Python
`ValueError("Malformed header string.")`) when the field count is odd,
when some field is not an integer, or when a symbol field's value lies
outside `[-256, 255]`; no table is returned in those cases.  (Symbols in
`[-256, -1]` are accepted by Python's negative indexing — see the
counterexample.) -/
theorem parse_header_rejects_malformed (s : List Char)
    (h : (splitWs s).length % 2 = 1 ∨ (∃ t ∈ splitWs s, pyInt t = none) ∨
      ∃ i t v, (splitWs s)[2 * i]? = some t ∧ pyInt t = some v ∧ (v < -256 ∨ 256 ≤ v)) :
    parse_header s = Except.error PyErr.valueError :=
  parsePairs_bad (splitWs s) _ (by simp) h

/-- C3 witness: the spec's own malformed-header example, `"97 2 98"` (odd
field count), is rejected. -/
theorem parse_header_rejects_malformed_witness :
    (splitWs "97 2 98".toList).length % 2 = 1 ∧
      parse_header "97 2 98".toList = Except.error PyErr.valueError :=
  ⟨by decide, parse_header_rejects_malformed _ (Or.inl (by decide))⟩

/-- C3 counterexample: the claim as stated fails for negative symbols —
`parse_header "-1 5"` returns a table (frequency 5 stored at index 255 by
Python's negative indexing) instead of raising ParseError. -/
theorem parse_header_accepts_negative_symbol :
    parse_header "-1 5".toList = Except.ok ((List.replicate 256 (0 : Int)).set 255 5) := by
  rfl

/-- C4: for every 256-entry non-negative frequency table, parsing the
created header yields a table whose non-zero (symbol, frequency) pairs are
exactly those of the original (indeed the identical table). -/
theorem header_roundtrip (f : List Int) (hlen : f.length = 256)
    (hpos : ∀ v ∈ f, 0 ≤ v) :
    ∃ g : List Int, parse_header (create_header f) = Except.ok g ∧
      (pyEnum g).filter (fun p => decide (p.2 ≠ 0))
        = (pyEnum f).filter (fun p => decide (p.2 ≠ 0)) :=
  ⟨f, parse_header_create_header f hlen, rfl⟩

/-- C4 witness: the header round-trip at the known-vector table. -/
theorem header_roundtrip_witness :
    ∃ g : List Int, parse_header (create_header knownTable) = Except.ok g ∧
      (pyEnum g).filter (fun p => decide (p.2 ≠ 0))
        = (pyEnum knownTable).filter (fun p => decide (p.2 ≠ 0)) :=
  header_roundtrip knownTable (by decide) (by decide)

/-- C5: in the code table generated from any frequency table with at least
one non-zero entry, no non-empty code is a proper prefix of another
non-empty code (codes of distinct symbols are never prefixes of one
another at all, being paths to distinct leaves). -/
theorem codes_no_proper_pfx (fl : List Int) (c₁ c₂ : Nat)
    (hsupp : ∃ p ∈ pyEnum fl, 0 < p.2)
    (hne₁ : (create_code (create_huff_tree fl)).getD c₁ [] ≠ [])
    (hne₂ : (create_code (create_huff_tree fl)).getD c₂ [] ≠ [])
    (hcc : c₁ ≠ c₂) :
    ¬(listPfx ((create_code (create_huff_tree fl)).getD c₁ [])
          ((create_code (create_huff_tree fl)).getD c₂ []) = true
        ∧ (create_code (create_huff_tree fl)).getD c₁ []
            ≠ (create_code (create_huff_tree fl)).getD c₂ []) := by
  rintro ⟨hpfx, -⟩
  cases htree : create_huff_tree fl with
  | nil =>
    apply hne₁
    rw [htree]
    exact getD_replicate_nil 256 c₁
  | node c f l r =>
    rw [htree] at hne₁ hne₂ hpfx
    have hccode : create_code (.node c f l r)
        = (traverseCode (.node c f l r) []).foldl
            (fun cs (p : Nat × List Char) => cs.set p.1 p.2) (List.replicate 256 []) := rfl
    have hp₁ : ∃ p, (c₁, p) ∈ traverseCode (.node c f l r) []
        ∧ (create_code (.node c f l r)).getD c₁ [] = p := by
      rcases foldl_set_getD_cases (traverseCode (.node c f l r) [])
          (List.replicate 256 []) c₁ with h | h
      · exfalso
        apply hne₁
        rw [hccode, h]
        exact getD_replicate_nil 256 c₁
      · rw [hccode]
        exact h
    have hp₂ : ∃ p, (c₂, p) ∈ traverseCode (.node c f l r) []
        ∧ (create_code (.node c f l r)).getD c₂ [] = p := by
      rcases foldl_set_getD_cases (traverseCode (.node c f l r) [])
          (List.replicate 256 []) c₂ with h | h
      · exfalso
        apply hne₂
        rw [hccode, h]
        exact getD_replicate_nil 256 c₂
      · rw [hccode]
        exact h
    obtain ⟨p₁, hmem₁, hval₁⟩ := hp₁
    obtain ⟨p₂, hmem₂, hval₂⟩ := hp₂
    rw [hval₁, hval₂] at hpfx
    exact traverse_antichain hmem₁ hmem₂ hcc hpfx

/-- C5 witness: the prefix-freeness theorem applied to the known-vector
table at the symbols 97 and 100. -/
theorem codes_no_proper_pfx_witness :
    ¬(listPfx ((create_code (create_huff_tree knownTable)).getD 97 [])
          ((create_code (create_huff_tree knownTable)).getD 100 []) = true
        ∧ (create_code (create_huff_tree knownTable)).getD 97 []
            ≠ (create_code (create_huff_tree knownTable)).getD 100 []) :=
  codes_no_proper_pfx knownTable 97 100 ⟨(97, 2), by decide, by decide⟩
    (by decide) (by decide) (by decide)

/-- C6: the known-vector test of the spec: on counts 2, 4, 8, 16, 2 at
symbols 97, 98, 99, 100, 102, the tree root has frequency 32 and
representative symbol 97, the header is `"97 2 98 4 99 8 100 16 102 2"`,
and the codes of 100, 97, 102 are "1", "0000", "0001". -/
theorem known_vector_checks :
    (create_huff_tree knownTable).freq = 32
      ∧ (create_huff_tree knownTable).char_ascii = 97
      ∧ create_header knownTable = "97 2 98 4 99 8 100 16 102 2".toList
      ∧ (create_code (create_huff_tree knownTable)).getD 100 [] = "1".toList
      ∧ (create_code (create_huff_tree knownTable)).getD 97 [] = "0000".toList
      ∧ (create_code (create_huff_tree knownTable)).getD 102 [] = "0001".toList :=
  ⟨rfl, rfl, rfl, rfl, rfl, rfl⟩

/-- C7 (amended): for every 256-entry non-negative frequency table with at
least two non-zero entries, every symbol of non-zero frequency gets a
non-empty code and every symbol of zero frequency gets the empty string.
(With exactly one non-zero entry the claim fails: that symbol's code is
empty — see the counterexample.) -/
theorem code_assignment_support (fl : List Int) (hlen : fl.length = 256)
    (hpos : ∀ v ∈ fl, 0 ≤ v) (h2 : 2 ≤ (initLeaves fl).length)
    (c : Nat) (hc : c < 256) :
    (fl.getD c 0 ≠ 0 → (create_code (create_huff_tree fl)).getD c [] ≠ [])
      ∧ (fl.getD c 0 = 0 → (create_code (create_huff_tree fl)).getD c [] = []) := by
  have hclen : c < fl.length := by omega
  have hgd : fl[c]? = some (fl.getD c 0) := by
    rw [List.getElem?_eq_getElem hclen, List.getD_eq_getElem?_getD,
      List.getElem?_eq_getElem hclen]
    rfl
  constructor
  · intro hnz
    have hvpos : 0 < fl.getD c 0 := by
      have hmem : fl.getD c 0 ∈ fl := by
        rw [List.getD_eq_getElem?_getD, List.getElem?_eq_getElem hclen]
        exact List.getElem_mem hclen
      have := hpos _ hmem
      omega
    have hsupp : c ∈ supportChars fl := mem_supportChars.2 ⟨fl.getD c 0, hgd, hvpos⟩
    exact (codes_support fl hlen h2 hsupp).1
  · intro hz
    apply codes_zero
    intro hsupp
    obtain ⟨v, hv, hvpos⟩ := mem_supportChars.1 hsupp
    rw [hgd] at hv
    injection hv with hv
    omega

/-- C7 witness: the code-assignment theorem applied to the known-vector
table at symbol 97. -/
theorem code_assignment_support_witness :
    (knownTable.getD 97 0 ≠ 0 → (create_code (create_huff_tree knownTable)).getD 97 [] ≠ [])
      ∧ (knownTable.getD 97 0 = 0
          → (create_code (create_huff_tree knownTable)).getD 97 [] = []) :=
  code_assignment_support knownTable (by decide) (by decide) (by decide) 97 (by decide)

/-- C7 counterexample: the claim as stated fails on the table whose only
non-zero count is 4 at symbol 97: the frequency is non-zero but the
assigned code is the empty string. -/
theorem single_symbol_empty_code :
    singleTable.getD 97 0 ≠ 0
      ∧ (create_code (create_huff_tree singleTable)).getD 97 [] = [] :=
  ⟨by decide, rfl⟩

/-- C8 (amended): `combine` returns a node whose left child is the one of
its arguments that precedes under the ordering relation (the other becomes
the right child; on full ties neither precedes and the second argument
goes left), whose frequency is the sum of both, and whose representative
symbol is the left child's representative symbol.  (The dropped clause —
that this equals the minimum symbol among descendant leaves — is false:
see the counterexample.) -/
theorem combine_spec_order (a b : HTree) :
    (comes_before a b = true ↔ specPrecedes a b)
      ∧ (combine a b).freq = a.freq + b.freq
      ∧ (specPrecedes a b → (combine a b).left = a ∧ (combine a b).right = b)
      ∧ (¬specPrecedes a b → (combine a b).left = b ∧ (combine a b).right = a)
      ∧ (combine a b).char_ascii = (combine a b).left.char_ascii := by
  have hiff := comes_before_iff a b
  refine ⟨hiff, ?_, ?_, ?_, ?_⟩
  · rw [combine]; split <;> rfl
  · intro hs
    rw [combine, if_pos (hiff.2 hs)]
    exact ⟨rfl, rfl⟩
  · intro hs
    rw [combine, if_neg (fun hc => hs (hiff.1 hc))]
    exact ⟨rfl, rfl⟩
  · rw [combine]; split <;> rfl

/-- C8 witness: the combine theorem applied to the repository's own test
nodes, leaves (65, 1) and (66, 2). -/
theorem combine_spec_order_witness :
    (comes_before (HTree.node 65 1 .nil .nil) (HTree.node 66 2 .nil .nil) = true
        ↔ specPrecedes (HTree.node 65 1 .nil .nil) (HTree.node 66 2 .nil .nil))
      ∧ (combine (HTree.node 65 1 .nil .nil) (HTree.node 66 2 .nil .nil)).freq
          = (HTree.node 65 1 .nil .nil).freq + (HTree.node 66 2 .nil .nil).freq
      ∧ (specPrecedes (HTree.node 65 1 .nil .nil) (HTree.node 66 2 .nil .nil)
          → (combine (HTree.node 65 1 .nil .nil) (HTree.node 66 2 .nil .nil)).left
              = HTree.node 65 1 .nil .nil
            ∧ (combine (HTree.node 65 1 .nil .nil) (HTree.node 66 2 .nil .nil)).right
              = HTree.node 66 2 .nil .nil)
      ∧ (¬specPrecedes (HTree.node 65 1 .nil .nil) (HTree.node 66 2 .nil .nil)
          → (combine (HTree.node 65 1 .nil .nil) (HTree.node 66 2 .nil .nil)).left
              = HTree.node 66 2 .nil .nil
            ∧ (combine (HTree.node 65 1 .nil .nil) (HTree.node 66 2 .nil .nil)).right
              = HTree.node 65 1 .nil .nil)
      ∧ (combine (HTree.node 65 1 .nil .nil) (HTree.node 66 2 .nil .nil)).char_ascii
          = (combine (HTree.node 65 1 .nil .nil) (HTree.node 66 2 .nil .nil)).left.char_ascii :=
  combine_spec_order (HTree.node 65 1 .nil .nil) (HTree.node 66 2 .nil .nil)

/-- C8 counterexample: the claim's final clause fails — combining the
leaves (100, 1) and (50, 2) gives representative symbol 100 (the left
child's), while the minimum symbol among descendant leaves is 50. -/
theorem combine_char_not_min_leaf :
    (combine (HTree.node 100 1 .nil .nil) (HTree.node 50 2 .nil .nil)).char_ascii
      ≠ minLeafChar (combine (HTree.node 100 1 .nil .nil) (HTree.node 50 2 .nil .nil)) := by
  decide

/-- C9: encoding the empty input produces an empty header and empty
bitstream (`create_huff_tree` returns `None` on the all-zero table), and
decoding the empty header with the empty bitstream yields empty output. -/
theorem empty_input_roundtrip :
    create_huff_tree (List.replicate 256 (0 : Int)) = .nil
      ∧ huffman_encode_core [] = ([], [])
      ∧ huffman_decode_core [] [] = Except.ok [] :=
  ⟨rfl, rfl, rfl⟩

/-- C10: the decode traversal never dereferences an absent node when the
parsed table has at least two non-zero entries (it errors on no bitstream
at all); with fewer than two non-zero entries it avoids the
`AttributeError` only if the bitstream contains no '0' or '1' characters,
since a bit step from a missing or leaf root moves to a missing child. -/
theorem decoder_traversal_safety :
    (∀ (fl : List Int) (bits : List Char), 2 ≤ (initLeaves fl).length →
      ∀ e : PyErr, decodeLoop (create_huff_tree fl) (create_huff_tree fl) bits
        ≠ .error e)
      ∧ (∀ (fl : List Int) (bits : List Char), (initLeaves fl).length ≤ 1 →
          decodeLoop (create_huff_tree fl) (create_huff_tree fl) bits
              ≠ .error PyErr.attributeError →
          ∀ ch ∈ bits, ¬(ch = '0' ∨ ch = '1')) := by
  constructor
  · intro fl bits h2 e habs
    obtain ⟨hfull, hnleaf, -⟩ := create_huff_tree_internal fl h2
    obtain ⟨out, hout⟩ := decodeLoop_total bits _ _ hfull hnleaf hfull hnleaf
    rw [hout] at habs
    cases habs
  · intro fl bits h1 hok
    rcases Nat.lt_or_ge (initLeaves fl).length 1 with h0 | h1'
    · have hnil : initLeaves fl = [] := List.length_eq_zero.1 (by omega)
      rw [create_huff_tree_empty fl hnil] at hok
      have hbits := decodeLoop_nil_tree bits hok
      subst hbits
      intro ch hch
      cases hch
    · have h11 : (initLeaves fl).length = 1 := by omega
      obtain ⟨c, f, htree, -⟩ := create_huff_tree_single fl h11
      rw [htree] at hok
      exact decodeLoop_single_leaf c f bits hok

/-- C10 witness: both parts at concrete inputs — the known-vector table
with a mixed bitstream never errors, and a single-symbol table with a
bit-free bitstream is traversed without error and indeed has no bit
characters. -/
theorem decoder_traversal_safety_witness :
    (∀ e : PyErr, decodeLoop (create_huff_tree knownTable) (create_huff_tree knownTable)
        "01x10".toList ≠ .error e)
      ∧ ∀ ch ∈ "xy".toList, ¬(ch = '0' ∨ ch = '1') :=
  ⟨fun e => decoder_traversal_safety.1 knownTable "01x10".toList (by decide) e,
    decoder_traversal_safety.2 singleTable "xy".toList (by decide)
      (by
        intro habs
        have h2 : Except.ok [97, 97] = Except.error PyErr.attributeError := habs
        cases h2)⟩
